import Mathlib

/-!
Verification of the SwellForms client SDK (`src/index.ts`).

The embedding models the JavaScript runtime values the SDK manipulates
(`JSValue`), the two pure utilities `toPlain` and `normalizeErrors`, and the
`SwellForm` state machine (`fetchFields`, `setField`, `setFields`, `validate`,
`submit`).  The HTTP transport is an oracle: each network operation takes the
transport's outcome (`Except SwellformsError HttpResponse`, the error side
standing for the `TIMEOUT`/`NETWORK` failures raised inside `fetchJSON`) as an
explicit argument, so a run of `validate`/`submit` is a pure function of the
starting state and the response.
-/

/-- Model of a JavaScript runtime value as the SDK sees it.  Numbers are
restricted to integers (no claim exercises non-integral numbers or NaN) and
`date ms` models a `Date` holding `ms` milliseconds since the epoch. -/
inductive JSValue where
  | undefined : JSValue
  | null : JSValue
  | bool : Bool → JSValue
  | num : Int → JSValue
  | str : String → JSValue
  | date : Int → JSValue
  | arr : List JSValue → JSValue
  | obj : List (String × JSValue) → JSValue

/-- JavaScript truthiness of a value (NaN is not modelled; `num` is falsy
exactly at 0, matching JS integers). -/
def truthy : JSValue → Bool
  | .undefined => false
  | .null => false
  | .bool b => b
  | .num n => n ≠ 0
  | .str s => s ≠ ""
  | .date _ => true
  | .arr _ => true
  | .obj _ => true

/-- Whether `typeof v === 'object'` holds in JavaScript: true for `null`,
arrays, plain objects and `Date` objects. -/
def typeofObject : JSValue → Bool
  | .null => true
  | .arr _ => true
  | .obj _ => true
  | .date _ => true
  | _ => false

/-- Property access `v.k` (also modelling the optional-chained `v?.k`: on
`null`/`undefined` it yields `undefined` rather than throwing, and no claim
reads a property of a `null`/`undefined` receiver without `?.`).  Own
properties exist only on plain objects here; index/`length` properties of
arrays and strings are not exercised by the SDK. -/
def getProp (v : JSValue) (k : String) : JSValue :=
  match v with
  | .obj fs =>
    match fs.lookup k with
    | some x => x
    | none => .undefined
  | _ => .undefined

/-- `Object.entries`: own enumerable entries of a value — the key/value pairs
of a plain object in insertion order, the index-keyed elements of an array,
and empty for everything else (a `Date` has no own enumerable properties). -/
def jsEntries : JSValue → List (String × JSValue)
  | .obj fs => fs
  | .arr xs => (xs.enum).map fun p => (toString p.1, p.2)
  | _ => []

/-- Coercion of a value to a property key (`values[field.name]`).  Exact for
primitives; object/array/date keys are approximated by `""` — no code path a
claim depends on ever uses a non-string field name. -/
def propKey : JSValue → String
  | .str s => s
  | .num n => toString n
  | .bool true => "true"
  | .bool false => "false"
  | .null => "null"
  | .undefined => "undefined"
  | _ => ""

/-- Association-list lookup with `String` keys (first match wins, like a JS
object whose keys are unique). -/
def objGet? (m : List (String × α)) (k : String) : Option α :=
  match m with
  | [] => none
  | p :: rest => if p.1 = k then some p.2 else objGet? rest k

/-- `m[k]` as JavaScript evaluates it on a missing key: `undefined`. -/
def objGetJS (m : List (String × JSValue)) (k : String) : JSValue :=
  (objGet? m k).getD .undefined

/-- `m[k] = v` on a JS object: update in place when the key exists (keeping
its position), append otherwise. -/
def objSet (m : List (String × α)) (k : String) (v : α) : List (String × α) :=
  match m with
  | [] => [(k, v)]
  | p :: rest => if p.1 = k then (k, v) :: rest else p :: objSet rest k v

/-- `delete m[k]` on a JS object (keys are unique in any state the code
builds, so removing every occurrence coincides with removing the one own
property). -/
def objDelete (m : List (String × α)) (k : String) : List (String × α) :=
  match m with
  | [] => []
  | p :: rest => if p.1 = k then objDelete rest k else p :: objDelete rest k

/-- `Object.assign(m, patch)`: apply each entry of `patch` in order. -/
def objAssign (m : List (String × α)) (patch : List (String × α)) :
    List (String × α) :=
  patch.foldl (fun acc p => objSet acc p.1 p.2) m

/-- First-of-two option choice (used to state lookup lemmas). -/
def orOpt (a b : Option α) : Option α :=
  match a with
  | some v => some v
  | none => b

/-- Strip a prefix from a character list, or fail. -/
def stripPfx : List Char → List Char → Option (List Char)
  | [], cs => some cs
  | _ :: _, [] => none
  | p :: ps, c :: cs => if c = p then stripPfx ps cs else none

/-- The field name of a raw error key: a leading `"fields."` prefix is
stripped (`key.startsWith('fields.') ? key.slice(7) : key` — the prefix is
exactly 7 characters, so `slice(7)` removes precisely it). -/
def fieldNameOf (k : String) : String :=
  match stripPfx "fields.".data k.data with
  | some rest => String.mk rest
  | none => k

/-- Coercion of one raw error value to a list of messages
(`Array.isArray(val) ? val.filter(v => typeof v === 'string') : []`). -/
def coerceMsgs : JSValue → List String
  | .arr xs => xs.filterMap fun v =>
      match v with
      | .str s => some s
      | _ => none
  | _ => []

/-- One step of the bag-filling loop of `normalizeErrors`:
`if (!bag[fieldId]) bag[fieldId] = []; bag[fieldId].push(...arr)`.
A present entry (even with an empty list, which is truthy in JS) is extended
in place; a missing one is appended. -/
def bagAdd (bag : List (String × List String)) (k : String) (msgs : List String) :
    List (String × List String) :=
  match objGet? bag k with
  | some _ => bag.map fun p => if p.1 = k then (p.1, p.2 ++ msgs) else p
  | none => bag ++ [(k, msgs)]

/-- The source object `normalizeErrors` reads its entries from:
`raw?.errors && typeof raw.errors === 'object' ? raw.errors : raw`. -/
def errorSource (raw : JSValue) : JSValue :=
  if truthy (getProp raw "errors") ∧ typeofObject (getProp raw "errors") then
    getProp raw "errors"
  else raw

/-- `normalizeErrors(raw)` from `src/index.ts`: an empty bag when the source is
falsy or not object-typed, otherwise a fold of `bagAdd` over the source's
entries with the `fields.` prefix stripped and values coerced to string
lists. -/
def normalizeErrors (raw : JSValue) : List (String × List String) :=
  let source := errorSource raw
  if truthy source ∧ typeofObject source then
    (jsEntries source).foldl
      (fun bag kv => bagAdd bag (fieldNameOf kv.1) (coerceMsgs kv.2)) []
  else []

example : normalizeErrors (.obj [("errors", .obj [("fields.emailAddress", .arr [.str "bad"])])]) =
    [("emailAddress", ["bad"])] := by rfl

example : normalizeErrors (.obj [("errors", .obj [("email", .num 7)])]) =
    [("email", [])] := by rfl

example : normalizeErrors .undefined = [] := by rfl

example : normalizeErrors (.str "oops") = [] := by rfl

example : normalizeErrors (.obj [("fields.a", .arr [.str "x", .num 3]), ("a", .arr [.str "y"])]) =
    [("a", ["x", "y"])] := by rfl

/-! ### `Date.prototype.toISOString` -/

/-- Zero-pad a natural number to two digits. -/
def pad2 (n : Nat) : String :=
  if n < 10 then "0" ++ toString n else toString n

/-- Zero-pad a natural number to three digits. -/
def pad3 (n : Nat) : String :=
  if n < 10 then "00" ++ toString n
  else if n < 100 then "0" ++ toString n
  else toString n

/-- Zero-pad a natural number to four digits. -/
def pad4 (n : Nat) : String :=
  if n < 10 then "000" ++ toString n
  else if n < 100 then "00" ++ toString n
  else if n < 1000 then "0" ++ toString n
  else toString n

/-- Zero-pad a natural number to six digits (for ISO expanded years). -/
def pad6 (n : Nat) : String :=
  if n < 10 then "00000" ++ toString n
  else if n < 100 then "0000" ++ toString n
  else if n < 1000 then "000" ++ toString n
  else if n < 10000 then "00" ++ toString n
  else if n < 100000 then "0" ++ toString n
  else toString n

/-- Proleptic-Gregorian civil date (year, month, day) of a day count relative
to 1970-01-01 (Howard Hinnant's `civil_from_days`). -/
def civilFromDays (z0 : Int) : Int × Nat × Nat :=
  let z : Int := z0 + 719468
  let era : Int := z.fdiv 146097
  let doe : Nat := (z - era * 146097).toNat
  let yoe : Nat := (doe - doe / 1460 + doe / 36524 - doe / 146096) / 365
  let y : Int := (yoe : Int) + era * 400
  let doy : Nat := doe - (365 * yoe + yoe / 4 - yoe / 100)
  let mp : Nat := (5 * doy + 2) / 153
  let d : Nat := doy - (153 * mp + 2) / 5 + 1
  let m : Nat := if mp < 10 then mp + 3 else mp - 9
  (if m ≤ 2 then y + 1 else y, m, d)

/-- The year component of an ISO-8601 timestamp: four digits for years
0–9999, the six-digit expanded form with a sign otherwise. -/
def isoYear (y : Int) : String :=
  if 0 ≤ y ∧ y ≤ 9999 then pad4 y.toNat
  else if y < 0 then "-" ++ pad6 (-y).toNat
  else "+" ++ pad6 y.toNat

/-- `Date(ms).toISOString()`: UTC timestamp in ISO-8601 form with millisecond
precision and a trailing `Z`. -/
def isoString (ms : Int) : String :=
  let day : Int := ms.fdiv 86400000
  let msod : Nat := (ms - day * 86400000).toNat
  let c := civilFromDays day
  isoYear c.1 ++ "-" ++ pad2 c.2.1 ++ "-" ++ pad2 c.2.2 ++ "T" ++
    pad2 (msod / 3600000) ++ ":" ++ pad2 (msod % 3600000 / 60000) ++ ":" ++
    pad2 (msod % 60000 / 1000) ++ "." ++ pad3 (msod % 1000) ++ "Z"

example : isoString 0 = "1970-01-01T00:00:00.000Z" := by rfl

/-! ### `toPlain` -/

mutual

/-- `toPlain(input)` from `src/index.ts`: primitives pass through, arrays
convert element-wise, `Date`s become their ISO string, a single-key `{value}`
wrapper is unwrapped recursively, and any other object is converted entry by
entry with `undefined`-valued results dropped. -/
def toPlain : JSValue → JSValue
  | .undefined => .undefined
  | .null => .null
  | .bool b => .bool b
  | .num n => .num n
  | .str s => .str s
  | .date ms => .str (isoString ms)
  | .arr xs => .arr (toPlainList xs)
  | .obj [(k, v)] =>
    if k = "value" then toPlain v else .obj (toPlainFields [(k, v)])
  | .obj [] => .obj []
  | .obj (p :: q :: rest) => .obj (toPlainFields (p :: q :: rest))

/-- Element-wise conversion of an array's contents. -/
def toPlainList : List JSValue → List JSValue
  | [] => []
  | v :: vs => toPlain v :: toPlainList vs

/-- Entry-wise conversion of a generic object's contents, omitting entries
whose converted value is `undefined`. -/
def toPlainFields : List (String × JSValue) → List (String × JSValue)
  | [] => []
  | (k, v) :: rest =>
    match toPlain v with
    | .undefined => toPlainFields rest
    | pv => (k, pv) :: toPlainFields rest

end

example : toPlain (.obj [("a", .date 0), ("b", .arr [.num 1, .undefined, .num 2]), ("c", .obj [("value", .num 5)])]) =
    .obj [("a", .str "1970-01-01T00:00:00.000Z"), ("b", .arr [.num 1, .undefined, .num 2]), ("c", .num 5)] := by
  simp [toPlain, toPlainList, toPlainFields]
  rfl

/-! ### The `SwellForm` state machine -/

/-- The error class `SwellformsError` (message, HTTP status — `0` for
transport-level failures — optional machine code and optional error bag). -/
structure SwellformsError where
  message : String
  status : Nat
  code : Option String
  errors : Option (List (String × List String))

/-- Outcome of `fetchJSON` when the transport itself succeeds: the response's
HTTP status and the parsed JSON body (`.undefined` when the body is empty or
unparseable).  A failing transport is the `Except.error` side of the oracle,
carrying the `TIMEOUT`/`NETWORK` `SwellformsError` raised inside
`fetchJSON`. -/
structure HttpResponse where
  status : Nat
  json : JSValue

/-- `res.ok` per the fetch standard: status in the inclusive range 200–299. -/
def resOk (s : Nat) : Bool :=
  decide (200 ≤ s ∧ s ≤ 299)

/-- A thrown value escaping a `SwellForm` method: either a `SwellformsError`
or a runtime `TypeError` (iterating non-array `definitions`). -/
inductive RunError where
  | swell : SwellformsError → RunError
  | typeError : String → RunError

/-- `ValidateResult`: `ok message` is `{valid: true, message}`;
`invalid errors message` is `{valid: false, errors, message}`. -/
inductive ValidateResult where
  | ok : JSValue → ValidateResult
  | invalid : List (String × List String) → JSValue → ValidateResult

/-- `SubmitResult`: `ok status data` is `{ok: true, status, data}`;
`invalid status errors data` is `{ok: false, status, errors, data}` (the code
only ever builds the latter with status 422). -/
inductive SubmitResult where
  | ok : Nat → JSValue → SubmitResult
  | invalid : Nat → List (String × List String) → JSValue → SubmitResult

/-- Strict-equality test `v === true`. -/
def isTrueVal : JSValue → Bool
  | .bool true => true
  | _ => false

/-- `Array.isArray`. -/
def isArray : JSValue → Bool
  | .arr _ => true
  | _ => false

/-- The empty-value test of `validateLocally`:
`value === null || value === undefined || value === '' ||
(Array.isArray(value) && value.length === 0)`. -/
def isEmptyVal : JSValue → Bool
  | .null => true
  | .undefined => true
  | .str s => s = ""
  | .arr xs => xs.isEmpty
  | _ => false

/-- The state of one `SwellForm` instance.  `definitions` is kept as a raw
`JSValue` because `fetchFields` stores whatever the response held, with no
shape check beyond `Array.isArray`/`?? []`. -/
structure SwellForm where
  formId : String
  definitions : JSValue
  values : List (String × JSValue)
  errors : List (String × List String)
  processing : Bool
  hasFetchedDefs : Bool

/-- `new SwellForm(formId, initialValues)`: stores the id and a copy of the
initial values (`{ ...initialValues }`, which deduplicates keys with the last
occurrence winning), with empty definitions and errors and no flags set. -/
def mkForm (formId : String) (initialValues : List (String × JSValue)) : SwellForm :=
  { formId := formId
    definitions := .arr []
    values := objAssign [] initialValues
    errors := []
    processing := false
    hasFetchedDefs := false }

/-- `setField(id, value)`: write the value; if an error entry exists for the
id (a present entry is a string array, which is truthy), delete it. -/
def SwellForm.setField (st : SwellForm) (id : String) (v : JSValue) : SwellForm :=
  { st with
    values := objSet st.values id v
    errors := if (objGet? st.errors id).isSome then objDelete st.errors id else st.errors }

/-- `setFields(map)`: `Object.assign(this.values, map)`; errors untouched. -/
def SwellForm.setFields (st : SwellForm) (map : List (String × JSValue)) : SwellForm :=
  { st with values := objAssign st.values map }

/-- `getFormErrors()`: a copy of the error bag (copies are identities in the
pure model). -/
def SwellForm.getFormErrors (st : SwellForm) : List (String × List String) :=
  st.errors

/-- What a successful `fetchFields` stores:
`Array.isArray(json) ? json : (json?.fields ?? [])` — the `??` default fires
only when the `fields` property is `null` or `undefined`, so a non-array
truthy `fields` value is stored as-is. -/
def fetchedFieldsOf (json : JSValue) : JSValue :=
  if isArray json then json
  else
    match getProp json "fields" with
    | .undefined => .arr []
    | .null => .arr []
    | v => v

/-- `fetchFields()`, given the transport's outcome.  Non-2xx statuses throw
(`NOT_FOUND`/`UNAUTHORIZED`/`UNEXPECTED`) without touching state; a 2xx
response stores `fetchedFieldsOf json` as `definitions`, sets
`hasFetchedDefs`, and returns the stored value. -/
def SwellForm.fetchFields (st : SwellForm) (tr : Except SwellformsError HttpResponse) :
    Except SwellformsError JSValue × SwellForm :=
  match tr with
  | .error e => (.error e, st)
  | .ok r =>
    if ¬ resOk r.status then
      if r.status == 404 then
        (.error ⟨"Form not found", r.status, some "NOT_FOUND", none⟩, st)
      else if r.status == 401 || r.status == 403 then
        (.error ⟨"Unauthorized", r.status, some "UNAUTHORIZED", none⟩, st)
      else
        (.error ⟨"Failed to fetch fields (" ++ toString r.status ++ ")", r.status,
          some "UNEXPECTED", none⟩, st)
    else
      (.ok (fetchedFieldsOf r.json),
       { st with definitions := fetchedFieldsOf r.json, hasFetchedDefs := true })

/-- One iteration of the `validateLocally` loop: for a required field whose
current value (`values[field.name]`) is empty, record
`['This field is required.']` under the field's name. -/
def localStep (values : List (String × JSValue))
    (errs : List (String × List String)) (d : JSValue) :
    List (String × List String) :=
  if truthy (getProp d "required") then
    if isEmptyVal (objGetJS values (propKey (getProp d "name"))) then
      objSet errs (propKey (getProp d "name")) ["This field is required."]
    else errs
  else errs

/-- The body of `validateLocally(only?)` as a function of the fields it
reads: iterate the definitions (throwing a `TypeError` when they are not an
array, as `for…of` would), keeping those whose `name` is in `only` when
given, and fold `localStep` over them starting from an empty bag. -/
def localErrors (definitions : JSValue) (values : List (String × JSValue))
    (only : Option (List String)) : Except String (List (String × List String)) :=
  match definitions with
  | .arr defs =>
    let fieldsToValidate :=
      match only with
      | some names => defs.filter fun d =>
          match getProp d "name" with
          | .str s => names.contains s
          | _ => false
      | none => defs
    .ok (fieldsToValidate.foldl (localStep values) [])
  | _ => .error "definitions is not iterable"

/-- `validateLocally(only?)`: reads only `definitions` and `values`. -/
def SwellForm.validateLocally (st : SwellForm) (only : Option (List String)) :
    Except String (List (String × List String)) :=
  localErrors st.definitions st.values only

/-- The remote pass of `validate`: 200 with `valid === true` clears errors and
returns valid; 422 normalizes and stores the bag and returns invalid; any
other outcome throws `UNEXPECTED` with the status. -/
def validateRemote (st : SwellForm) (tr : Except SwellformsError HttpResponse) :
    Except RunError ValidateResult × SwellForm :=
  match tr with
  | .error e => (.error (.swell e), st)
  | .ok r =>
    if r.status == 200 && isTrueVal (getProp r.json "valid") then
      (.ok (.ok (getProp r.json "message")), { st with errors := [] })
    else if r.status == 422 then
      let bag := normalizeErrors r.json
      (.ok (.invalid bag (getProp r.json "message")), { st with errors := bag })
    else
      (.error (.swell ⟨"Unexpected status " ++ toString r.status, r.status,
        some "UNEXPECTED", none⟩), st)

/-- `validate(opts?)`, given the transport's outcome: set `processing`, run
the local pass when definitions were fetched (short-circuiting on any local
error), otherwise the remote pass; the `finally` clears `processing` on every
exit. -/
def SwellForm.validate (st0 : SwellForm) (only : Option (List String))
    (tr : Except SwellformsError HttpResponse) :
    Except RunError ValidateResult × SwellForm :=
  let st := { st0 with processing := true }
  let out :=
    if st.hasFetchedDefs then
      match st.validateLocally only with
      | .error m => (.error (.typeError m), st)
      | .ok clientErrors =>
        if clientErrors.isEmpty then validateRemote st tr
        else
          let st2 := { st with errors := clientErrors }
          (.ok (.invalid st2.errors (.str "Please fix the errors below.")), st2)
    else validateRemote st tr
  (out.1, { out.2 with processing := false })

/-- The remote pass of `submit`: 422 stores the normalized bag and returns
non-ok with the raw body; any 2xx clears errors and returns ok; 429/409/
≥500/other non-2xx throw `RATE_LIMITED`/`CONFLICT`/`SERVER`/`UNEXPECTED`. -/
def submitRemote (st : SwellForm) (tr : Except SwellformsError HttpResponse) :
    Except RunError SubmitResult × SwellForm :=
  match tr with
  | .error e => (.error (.swell e), st)
  | .ok r =>
    if r.status == 422 then
      let bag := normalizeErrors r.json
      (.ok (.invalid 422 bag r.json), { st with errors := bag })
    else if resOk r.status then
      (.ok (.ok r.status r.json), { st with errors := [] })
    else if r.status == 429 then
      (.error (.swell ⟨"Rate limited", r.status, some "RATE_LIMITED", none⟩), st)
    else if r.status == 409 then
      (.error (.swell ⟨"Conflict", r.status, some "CONFLICT", none⟩), st)
    else if 500 ≤ r.status then
      (.error (.swell ⟨"Server error", r.status, some "SERVER", none⟩), st)
    else
      (.error (.swell ⟨"Unexpected status " ++ toString r.status, r.status,
        some "UNEXPECTED", none⟩), st)

/-- `submit(overrides?)`, given the transport's outcome.  The overrides only
shape the request body (merged over `values` for serialization), which the
response oracle already accounts for, so they do not appear in the
state-transition semantics; local validation runs unfiltered. -/
def SwellForm.submit (st0 : SwellForm) (tr : Except SwellformsError HttpResponse) :
    Except RunError SubmitResult × SwellForm :=
  let st := { st0 with processing := true }
  let out :=
    if st.hasFetchedDefs then
      match st.validateLocally none with
      | .error m => (.error (.typeError m), st)
      | .ok clientErrors =>
        if clientErrors.isEmpty then submitRemote st tr
        else
          let st2 := { st with errors := clientErrors }
          (.ok (.invalid 422 st2.errors (.obj [("message", .str "Validation failed.")])), st2)
    else submitRemote st tr
  (out.1, { out.2 with processing := false })

/-- Modelled from the spec: `validateField(fieldId)` is documented in the
spec (§4.4) and the README but its body is absent from `src/index.ts`; per
the spec it is exactly `validate({ only: [fieldId] })`. -/
def SwellForm.validateField (st : SwellForm) (fieldId : String)
    (tr : Except SwellformsError HttpResponse) :
    Except RunError ValidateResult × SwellForm :=
  st.validate (some [fieldId]) tr

/-! ### Association-list lemmas -/

theorem objGet?_objSet_self (m : List (String × α)) (k : String) (v : α) :
    objGet? (objSet m k v) k = some v := by
  induction m with
  | nil => simp [objSet, objGet?]
  | cons p rest ih =>
    by_cases h : p.1 = k
    · simp [objSet, h, objGet?]
    · simp [objSet, h, objGet?, ih]

theorem objGet?_objSet_ne (m : List (String × α)) (k k' : String) (v : α)
    (h : k' ≠ k) : objGet? (objSet m k v) k' = objGet? m k' := by
  have hkk' : ¬ k = k' := fun hh => h hh.symm
  induction m with
  | nil => simp [objSet, objGet?, hkk']
  | cons p rest ih =>
    by_cases hp : p.1 = k
    · subst hp
      simp [objSet, objGet?, hkk']
    · simp [objSet, hp, objGet?, ih]

theorem objGet?_objDelete_self (m : List (String × α)) (k : String) :
    objGet? (objDelete m k) k = none := by
  induction m with
  | nil => simp [objDelete, objGet?]
  | cons p rest ih =>
    by_cases h : p.1 = k
    · simpa [objDelete, h] using ih
    · simpa [objDelete, h, objGet?] using ih

theorem objGet?_objDelete_ne (m : List (String × α)) (k k' : String)
    (h : k' ≠ k) : objGet? (objDelete m k) k' = objGet? m k' := by
  induction m with
  | nil => simp [objDelete]
  | cons p rest ih =>
    by_cases hp : p.1 = k
    · subst hp
      have hne : ¬ p.1 = k' := fun hh => h hh.symm
      simp [objDelete, objGet?, hne, ih]
    · by_cases hp' : p.1 = k'
      · simp [objDelete, hp, objGet?, hp', h]
      · simp [objDelete, hp, objGet?, hp', ih]

theorem orOpt_some (v : α) (b : Option α) : orOpt (some v) b = some v := rfl

theorem orOpt_none (b : Option α) : orOpt none b = b := rfl

theorem objGet?_append (a b : List (String × α)) (k : String) :
    objGet? (a ++ b) k = orOpt (objGet? a k) (objGet? b k) := by
  induction a with
  | nil => simp [objGet?, orOpt]
  | cons p rest ih =>
    by_cases h : p.1 = k
    · simp [objGet?, h, orOpt]
    · simp [objGet?, h, ih]

theorem objGet?_objAssign (m patch : List (String × α)) (k : String) :
    objGet? (objAssign m patch) k = orOpt (objGet? patch.reverse k) (objGet? m k) := by
  induction patch generalizing m with
  | nil => simp [objAssign, objGet?, orOpt]
  | cons p rest ih =>
    show objGet? (objAssign (objSet m p.1 p.2) rest) k = _
    rw [ih, List.reverse_cons, objGet?_append]
    by_cases hk : p.1 = k
    · subst hk
      cases hr : objGet? rest.reverse p.1 with
      | none => simp [hr, orOpt_none, orOpt_some, objGet?_objSet_self, objGet?]
      | some w => simp [hr, orOpt_some]
    · have h1 : objGet? (objSet m p.1 p.2) k = objGet? m k :=
        objGet?_objSet_ne _ _ _ _ (fun hh => hk hh.symm)
      cases hr : objGet? rest.reverse k with
      | none => simp [hr, orOpt_none, h1, objGet?, hk]
      | some w => simp [hr, orOpt_some]

theorem mem_objSet (m : List (String × α)) (k : String) (v : α) (p : String × α)
    (h : p ∈ objSet m k v) : p ∈ m ∨ p = (k, v) := by
  induction m with
  | nil =>
    simp only [objSet, List.mem_singleton] at h
    right; exact h
  | cons q rest ih =>
    by_cases hq : q.1 = k
    · simp only [objSet, if_pos hq] at h
      rcases List.mem_cons.mp h with h1 | h1
      · right; exact h1
      · left; exact List.mem_cons_of_mem _ h1
    · simp only [objSet, if_neg hq] at h
      rcases List.mem_cons.mp h with h1 | h1
      · left; exact h1 ▸ List.mem_cons_self _ _
      · rcases ih h1 with h2 | h2
        · left; exact List.mem_cons_of_mem _ h2
        · right; exact h2

/-! ### Claim theorems: frame effects and flags -/

/-- C9: `setField(n, v)` sets `values[n]` to `v` and deletes any error entry
for `n`, leaving every other value entry, every other error entry, and all
remaining state unchanged; `setFields(map)` shallow-merges `map` into
`values` (the last occurrence of a key in `map` wins, otherwise the existing
value survives) and leaves the error bag entirely unchanged, even for keys of
`map` that currently have error entries. -/
theorem setField_setFields_frame (st : SwellForm) (n : String) (v : JSValue)
    (map : List (String × JSValue)) :
    objGet? (st.setField n v).values n = some v ∧
    (∀ k, k ≠ n → objGet? (st.setField n v).values k = objGet? st.values k) ∧
    objGet? (st.setField n v).errors n = none ∧
    (∀ k, k ≠ n → objGet? (st.setField n v).errors k = objGet? st.errors k) ∧
    (st.setField n v).formId = st.formId ∧
    (st.setField n v).definitions = st.definitions ∧
    (st.setField n v).processing = st.processing ∧
    (st.setField n v).hasFetchedDefs = st.hasFetchedDefs ∧
    (st.setFields map).errors = st.errors ∧
    (∀ k, objGet? (st.setFields map).values k =
      orOpt (objGet? map.reverse k) (objGet? st.values k)) ∧
    (st.setFields map).formId = st.formId ∧
    (st.setFields map).definitions = st.definitions ∧
    (st.setFields map).processing = st.processing ∧
    (st.setFields map).hasFetchedDefs = st.hasFetchedDefs := by
  refine ⟨objGet?_objSet_self _ _ _, fun k hk => objGet?_objSet_ne _ _ _ _ hk,
    ?_, ?_, rfl, rfl, rfl, rfl, rfl, ?_, rfl, rfl, rfl, rfl⟩
  case refine_3 =>
    intro k
    show objGet? (objAssign st.values map) k = _
    exact objGet?_objAssign _ _ _
  · show objGet?
      (if (objGet? st.errors n).isSome then objDelete st.errors n else st.errors) n = none
    by_cases h : (objGet? st.errors n).isSome
    · simp [h, objGet?_objDelete_self]
    · simp only [h, if_neg Bool.false_ne_true]
      exact Option.not_isSome_iff_eq_none.mp (by simpa using h)
  · intro k hk
    show objGet?
      (if (objGet? st.errors n).isSome then objDelete st.errors n else st.errors) k =
        objGet? st.errors k
    by_cases h : (objGet? st.errors n).isSome
    · simp [h, objGet?_objDelete_ne _ _ _ hk]
    · simp [h]

theorem setField_setFields_frame_witness :
    objGet? ((mkForm "f" [("b", .num 2)]).setField "a" (.str "x")).values "b" =
      some (.num 2) := by
  have h := (setField_setFields_frame (mkForm "f" [("b", .num 2)]) "a" (.str "x") []).2.1
    "b" (by decide)
  rw [h]; rfl

/-- C8: the `processing` flag is scoped to one in-flight `validate`/`submit`:
the constructor starts with it false, the pure mutators and `fetchFields`
never change it, both network operations leave it false on every exit
(success, validation failure, or thrown error), and both behave as if the
flag were set to true on entry (their outcome ignores the incoming flag). -/
theorem processing_scoped (st : SwellForm) (fid : String)
    (init map : List (String × JSValue)) (n : String) (v : JSValue)
    (only : Option (List String)) (tr : Except SwellformsError HttpResponse) :
    (mkForm fid init).processing = false ∧
    (st.setField n v).processing = st.processing ∧
    (st.setFields map).processing = st.processing ∧
    (st.fetchFields tr).2.processing = st.processing ∧
    (st.validate only tr).2.processing = false ∧
    (st.submit tr).2.processing = false ∧
    st.validate only tr = SwellForm.validate { st with processing := true } only tr ∧
    st.submit tr = SwellForm.submit { st with processing := true } tr := by
  refine ⟨rfl, rfl, rfl, ?_, rfl, rfl, rfl, rfl⟩
  cases tr with
  | error e => rfl
  | ok r =>
    show (SwellForm.fetchFields st (.ok r)).2.processing = st.processing
    simp only [SwellForm.fetchFields]
    split
    · split
      · rfl
      · split <;> rfl
    · rfl

/-- C4: `validateField(n)` coincides with `validate({ only: [n] })` — the
same result and the same final state on every transport outcome.
(`validateField` is modelled from the spec; see its definition.) -/
theorem validateField_eq_validate (st : SwellForm) (n : String)
    (tr : Except SwellformsError HttpResponse) :
    st.validateField n tr = st.validate (some [n]) tr := rfl

/-! ### Reaching the remote pass -/

theorem validate_reaches_remote (st : SwellForm) (only : Option (List String))
    (tr : Except SwellformsError HttpResponse)
    (h : st.hasFetchedDefs = false ∨ st.validateLocally only = .ok []) :
    st.validate only tr =
      ((validateRemote { st with processing := true } tr).1,
       { (validateRemote { st with processing := true } tr).2 with processing := false }) := by
  rcases h with h | h
  · simp [SwellForm.validate, h]
  · simp only [SwellForm.validateLocally] at h
    by_cases hf : st.hasFetchedDefs
    · simp [SwellForm.validate, hf, SwellForm.validateLocally, h]
    · simp [SwellForm.validate, hf]

theorem submit_reaches_remote (st : SwellForm)
    (tr : Except SwellformsError HttpResponse)
    (h : st.hasFetchedDefs = false ∨ st.validateLocally none = .ok []) :
    st.submit tr =
      ((submitRemote { st with processing := true } tr).1,
       { (submitRemote { st with processing := true } tr).2 with processing := false }) := by
  rcases h with h | h
  · simp [SwellForm.submit, h]
  · simp only [SwellForm.validateLocally] at h
    by_cases hf : st.hasFetchedDefs
    · simp [SwellForm.submit, hf, SwellForm.validateLocally, h]
    · simp [SwellForm.submit, hf]

/-- C10: when `validate` reaches the server and gets HTTP 200 whose body does
not have `valid === true`, it throws `UNEXPECTED` with status 200 and leaves
the error bag (and everything except `processing`) unchanged. -/
theorem validate_200_not_valid (st : SwellForm) (only : Option (List String))
    (j : JSValue)
    (h : st.hasFetchedDefs = false ∨ st.validateLocally only = .ok [])
    (hv : isTrueVal (getProp j "valid") = false) :
    st.validate only (.ok ⟨200, j⟩) =
      (.error (.swell ⟨"Unexpected status 200", 200, some "UNEXPECTED", none⟩),
       { st with processing := false }) := by
  rw [validate_reaches_remote st only _ h]
  simp [validateRemote, hv]
  rfl

theorem validate_200_not_valid_witness :
    (mkForm "f" []).validate none (.ok ⟨200, .undefined⟩) =
      (.error (.swell ⟨"Unexpected status 200", 200, some "UNEXPECTED", none⟩),
       { mkForm "f" [] with processing := false }) :=
  validate_200_not_valid (mkForm "f" []) none .undefined (Or.inl rfl) rfl

/-- C1: for a `submit` that reaches the remote pass, the outcome is a function
of the HTTP status: 422 stores the normalized bag and returns non-ok 422 with
the raw body as data; any 2xx clears the bag and returns ok with that status
and the body; 429/409/≥500 throw `RATE_LIMITED`/`CONFLICT`/`SERVER`; every
other non-2xx, non-422 status throws `UNEXPECTED` — each thrown error
carrying the HTTP status. -/
theorem submit_remote_status_mapping (st : SwellForm) (r : HttpResponse)
    (h : st.hasFetchedDefs = false ∨ st.validateLocally none = .ok []) :
    (r.status = 422 →
      st.submit (.ok r) =
        (.ok (.invalid 422 (normalizeErrors r.json) r.json),
         { st with errors := normalizeErrors r.json, processing := false })) ∧
    (200 ≤ r.status → r.status ≤ 299 →
      st.submit (.ok r) =
        (.ok (.ok r.status r.json), { st with errors := [], processing := false })) ∧
    (r.status = 429 →
      st.submit (.ok r) =
        (.error (.swell ⟨"Rate limited", 429, some "RATE_LIMITED", none⟩),
         { st with processing := false })) ∧
    (r.status = 409 →
      st.submit (.ok r) =
        (.error (.swell ⟨"Conflict", 409, some "CONFLICT", none⟩),
         { st with processing := false })) ∧
    (500 ≤ r.status →
      st.submit (.ok r) =
        (.error (.swell ⟨"Server error", r.status, some "SERVER", none⟩),
         { st with processing := false })) ∧
    (¬ (200 ≤ r.status ∧ r.status ≤ 299) → r.status ≠ 422 → r.status ≠ 429 →
      r.status ≠ 409 → r.status < 500 →
      st.submit (.ok r) =
        (.error (.swell ⟨"Unexpected status " ++ toString r.status, r.status,
           some "UNEXPECTED", none⟩),
         { st with processing := false })) := by
  refine ⟨?_, ?_, ?_, ?_, ?_, ?_⟩ <;> rw [submit_reaches_remote st _ h] <;>
    intro h1
  · simp [submitRemote, resOk, h1]
  · intro h2
    have h422 : (r.status == 422) = false := by simp; omega
    have hok : resOk r.status = true := by simp [resOk]; omega
    simp [submitRemote, h422, hok]
  · simp [submitRemote, resOk, h1]
  · simp [submitRemote, resOk, h1]
  · have h422 : (r.status == 422) = false := by simp; omega
    have hok : resOk r.status = false := by simp [resOk]; omega
    have h429 : (r.status == 429) = false := by simp; omega
    have h409 : (r.status == 409) = false := by simp; omega
    simp [submitRemote, h422, hok, h429, h409, h1]
  · intro h422' h429' h409' h500
    have h422 : (r.status == 422) = false := by simp [h422']
    have hok : resOk r.status = false := by
      simp only [resOk, decide_eq_false_iff_not]
      exact h1
    have h429 : (r.status == 429) = false := by simp [h429']
    have h409 : (r.status == 409) = false := by simp [h409']
    have h500' : ¬ (500 ≤ r.status) := by omega
    simp [submitRemote, h422, hok, h429, h409, h500']

theorem submit_remote_status_mapping_witness :
    (mkForm "f" []).submit (.ok ⟨429, .undefined⟩) =
      (.error (.swell ⟨"Rate limited", 429, some "RATE_LIMITED", none⟩),
       { mkForm "f" [] with processing := false }) :=
  (submit_remote_status_mapping (mkForm "f" []) ⟨429, .undefined⟩ (Or.inl rfl)).2.2.1 rfl

/-! ### C2: local validation short-circuits the transport -/

theorem localStep_preserves (values : List (String × JSValue))
    (l : List JSValue) (acc : List (String × List String)) (n : String)
    (h : objGet? acc n = some ["This field is required."]) :
    objGet? (l.foldl (localStep values) acc) n =
      some ["This field is required."] := by
  induction l generalizing acc with
  | nil => exact h
  | cons e rest ih =>
    rw [List.foldl_cons]
    apply ih
    unfold localStep
    by_cases h1 : truthy (getProp e "required") = true
    · by_cases h2 : isEmptyVal (objGetJS values (propKey (getProp e "name"))) = true
      · simp only [h1, h2, if_true]
        by_cases h3 : propKey (getProp e "name") = n
        · rw [h3, objGet?_objSet_self]
        · rw [objGet?_objSet_ne _ _ _ _ (fun hh => h3 hh.symm)]
          exact h
      · simpa [h1, h2] using h
    · simpa [h1] using h

theorem localStep_mem (values : List (String × JSValue))
    (l : List JSValue) (d : JSValue) (n : String)
    (hname : getProp d "name" = .str n)
    (hreq : truthy (getProp d "required") = true)
    (hempty : isEmptyVal (objGetJS values n) = true) :
    ∀ acc, d ∈ l →
      objGet? (l.foldl (localStep values) acc) n =
        some ["This field is required."] := by
  induction l with
  | nil => intro acc hd; cases hd
  | cons e rest ih =>
    intro acc hd
    rcases List.mem_cons.mp hd with he | he
    · subst he
      have hstep : localStep values acc d = objSet acc n ["This field is required."] := by
        unfold localStep
        rw [hname]
        simp only [propKey]
        simp [hreq, hempty]
      rw [List.foldl_cons, hstep]
      exact localStep_preserves values rest _ n (objGet?_objSet_self _ _ _)
    · rw [List.foldl_cons]
      exact ih _ he

/-- C2: if definitions were fetched and contain a required field whose
current value is empty, `submit` never consults the transport — for every
transport outcome it returns the same `{ok: false, status: 422}` result —
and it stores the local required-field errors as the error bag. -/
theorem submit_local_short_circuit (st : SwellForm) (defs : List JSValue)
    (d : JSValue) (n : String)
    (hdefs : st.definitions = .arr defs)
    (hfetched : st.hasFetchedDefs = true)
    (hd : d ∈ defs)
    (hname : getProp d "name" = .str n)
    (hreq : truthy (getProp d "required") = true)
    (hempty : isEmptyVal (objGetJS st.values n) = true) :
    ∃ bag, st.validateLocally none = .ok bag ∧
      objGet? bag n = some ["This field is required."] ∧ bag ≠ [] ∧
      ∀ tr, st.submit tr =
        (.ok (.invalid 422 bag (.obj [("message", .str "Validation failed.")])),
         { st with errors := bag, processing := false }) := by
  have hmem : objGet? (defs.foldl (localStep st.values) []) n =
      some ["This field is required."] :=
    localStep_mem st.values defs d n hname hreq hempty [] hd
  have hne : defs.foldl (localStep st.values) [] ≠ [] := by
    intro hnil
    rw [hnil] at hmem
    simp [objGet?] at hmem
  refine ⟨defs.foldl (localStep st.values) [], ?_, hmem, hne, ?_⟩
  · simp [SwellForm.validateLocally, localErrors, hdefs]
  · intro tr
    simp [SwellForm.submit, hfetched, SwellForm.validateLocally, localErrors, hdefs, hne]

theorem submit_local_short_circuit_witness :
    ∃ bag,
      SwellForm.validateLocally
        { formId := "f", definitions := .arr [.obj [("name", .str "email"), ("required", .bool true)]],
          values := [], errors := [], processing := false, hasFetchedDefs := true } none = .ok bag ∧
      objGet? bag "email" = some ["This field is required."] ∧ bag ≠ [] ∧
      ∀ tr,
        SwellForm.submit
          { formId := "f", definitions := .arr [.obj [("name", .str "email"), ("required", .bool true)]],
            values := [], errors := [], processing := false, hasFetchedDefs := true } tr =
          (.ok (.invalid 422 bag (.obj [("message", .str "Validation failed.")])),
           { formId := "f", definitions := .arr [.obj [("name", .str "email"), ("required", .bool true)]],
             values := [], errors := bag, processing := false, hasFetchedDefs := true }) :=
  submit_local_short_circuit _ _ (.obj [("name", .str "email"), ("required", .bool true)])
    "email" rfl rfl (List.mem_singleton.mpr rfl) rfl rfl rfl

/-! ### C7: `fetchFields` -/

/-- C7 counterexample: the claim says a 2xx body matching neither accepted
shape (bare array, or object with a `fields` array) stores an empty sequence;
but on body `{fields: 42}` — whose `fields` is not an array — the code stores
`42` itself as the definitions (and still sets the fetched flag). -/
theorem fetchFields_default_counterexample :
    ((mkForm "f" []).fetchFields (.ok ⟨200, .obj [("fields", .num 42)]⟩)).2.definitions =
      .num 42 ∧
    ((mkForm "f" []).fetchFields (.ok ⟨200, .obj [("fields", .num 42)]⟩)).2.hasFetchedDefs =
      true ∧
    JSValue.num 42 ≠ .arr [] := by
  refine ⟨rfl, rfl, fun h => ?_⟩
  cases h

/-- C7 amended: on a 2xx response `fetchFields` stores the body itself when
it is a bare array, otherwise the body's `fields` property whenever that is
neither `null` nor `undefined` (whatever its type — the empty-sequence
default fires only for a `null`/`undefined`/missing `fields` property), and
sets the fetched flag; on failure it throws with the HTTP status, with
`NOT_FOUND` for 404, `UNAUTHORIZED` for 401 or 403, and `UNEXPECTED` for any
other non-2xx status, and a transport error propagates — all without
touching state. -/
theorem fetchFields_behavior (st : SwellForm) (r : HttpResponse)
    (e : SwellformsError) :
    (resOk r.status = true →
      st.fetchFields (.ok r) =
        (.ok (fetchedFieldsOf r.json),
         { st with definitions := fetchedFieldsOf r.json, hasFetchedDefs := true })) ∧
    (isArray r.json = true → fetchedFieldsOf r.json = r.json) ∧
    (isArray r.json = false → getProp r.json "fields" = .undefined →
      fetchedFieldsOf r.json = .arr []) ∧
    (isArray r.json = false → getProp r.json "fields" = .null →
      fetchedFieldsOf r.json = .arr []) ∧
    (isArray r.json = false → getProp r.json "fields" ≠ .undefined →
      getProp r.json "fields" ≠ .null →
      fetchedFieldsOf r.json = getProp r.json "fields") ∧
    (r.status = 404 →
      st.fetchFields (.ok r) =
        (.error ⟨"Form not found", 404, some "NOT_FOUND", none⟩, st)) ∧
    (r.status = 401 ∨ r.status = 403 →
      st.fetchFields (.ok r) =
        (.error ⟨"Unauthorized", r.status, some "UNAUTHORIZED", none⟩, st)) ∧
    (resOk r.status = false → r.status ≠ 404 → r.status ≠ 401 → r.status ≠ 403 →
      st.fetchFields (.ok r) =
        (.error ⟨"Failed to fetch fields (" ++ toString r.status ++ ")", r.status,
           some "UNEXPECTED", none⟩, st)) ∧
    st.fetchFields (.error e) = (.error e, st) := by
  refine ⟨?_, ?_, ?_, ?_, ?_, ?_, ?_, ?_, rfl⟩
  · intro hok
    simp [SwellForm.fetchFields, hok]
  · intro ha
    simp [fetchedFieldsOf, ha]
  · intro ha hu
    simp [fetchedFieldsOf, ha, hu]
  · intro ha hn
    simp [fetchedFieldsOf, ha, hn]
  · intro ha hu hn
    cases hv : getProp r.json "fields" <;>
      simp [fetchedFieldsOf, ha, hv] <;> rw [hv] at hu hn <;> simp at hu hn
  · intro hs
    simp [SwellForm.fetchFields, resOk, hs]
  · rintro (hs | hs) <;> simp [SwellForm.fetchFields, resOk, hs]
  · intro hok h404 h401 h403
    have b404 : (r.status == 404) = false := by simp [h404]
    have b401 : (r.status == 401) = false := by simp [h401]
    have b403 : (r.status == 403) = false := by simp [h403]
    simp [SwellForm.fetchFields, hok, b404, b401, b403]

theorem fetchFields_behavior_witness :
    (mkForm "f" []).fetchFields (.ok ⟨200, .arr [.str "x"]⟩) =
      (.ok (.arr [.str "x"]),
       { mkForm "f" [] with definitions := .arr [.str "x"], hasFetchedDefs := true }) := by
  have h := (fetchFields_behavior (mkForm "f" []) ⟨200, .arr [.str "x"]⟩
    ⟨"x", 0, none, none⟩).1 rfl
  rw [h]
  rfl

/-! ### C3: non-emptiness of error-bag entries -/

/-- The spec's §3 invariant: no entry of the error bag has an empty message
list. -/
def errorsWF (bag : List (String × List String)) : Prop :=
  ∀ p ∈ bag, p.2 ≠ []

/-- A transport outcome whose 422 body (if any) normalizes to a bag without
empty message lists. -/
def wf422 (tr : Except SwellformsError HttpResponse) : Prop :=
  ∀ r, tr = .ok r → r.status = 422 → errorsWF (normalizeErrors r.json)

/-- C3 counterexample: starting from a fresh instance (whose empty bag
satisfies the invariant), a 422 submit response whose `errors` object maps
`email` to the non-array `7` leaves the instance with the entry
`email ↦ []` — an entry with an empty message list. -/
theorem errors_nonempty_counterexample :
    errorsWF (mkForm "f" []).errors ∧
    ((mkForm "f" []).submit
        (.ok ⟨422, .obj [("errors", .obj [("email", .num 7)])]⟩)).2.errors =
      [("email", [])] ∧
    ¬ errorsWF ((mkForm "f" []).submit
        (.ok ⟨422, .obj [("errors", .obj [("email", .num 7)])]⟩)).2.errors := by
  have h2 : ((mkForm "f" []).submit
      (.ok ⟨422, .obj [("errors", .obj [("email", .num 7)])]⟩)).2.errors =
        [("email", [])] := rfl
  refine ⟨fun p hp => absurd hp (List.not_mem_nil p), h2, fun hwf => ?_⟩
  have hm : ("email", ([] : List String)) ∈ ((mkForm "f" []).submit
      (.ok ⟨422, .obj [("errors", .obj [("email", .num 7)])]⟩)).2.errors := by
    rw [h2]
    exact List.mem_singleton.mpr rfl
  exact hwf _ hm rfl

theorem mem_objDelete (m : List (String × α)) (k : String) (p : String × α)
    (h : p ∈ objDelete m k) : p ∈ m := by
  induction m with
  | nil => simp [objDelete] at h
  | cons q rest ih =>
    by_cases hq : q.1 = k
    · simp only [objDelete, if_pos hq] at h
      exact List.mem_cons_of_mem _ (ih h)
    · simp only [objDelete, if_neg hq] at h
      rcases List.mem_cons.mp h with h1 | h1
      · exact h1 ▸ List.mem_cons_self _ _
      · exact List.mem_cons_of_mem _ (ih h1)

theorem localStep_fold_msg (values : List (String × JSValue)) (l : List JSValue) :
    ∀ acc, (∀ p ∈ acc, p.2 = ["This field is required."]) →
      ∀ p ∈ l.foldl (localStep values) acc, p.2 = ["This field is required."] := by
  induction l with
  | nil => intro acc hacc p hp; exact hacc p hp
  | cons e rest ih =>
    intro acc hacc p hp
    rw [List.foldl_cons] at hp
    refine ih _ ?_ p hp
    intro q hq
    unfold localStep at hq
    by_cases h1 : truthy (getProp e "required") = true
    · by_cases h2 : isEmptyVal (objGetJS values (propKey (getProp e "name"))) = true
      · simp only [h1, h2, if_true] at hq
        rcases mem_objSet _ _ _ _ hq with hin | heq
        · exact hacc q hin
        · rw [heq]
      · simp only [h1, h2, if_true, if_false, Bool.not_eq_true] at hq
        exact hacc q (by simpa [h2] using hq)
    · simp only [Bool.not_eq_true] at h1
      simp only [h1, if_false, Bool.false_eq_true] at hq
      exact hacc q hq

theorem validateLocally_ok_msg (st : SwellForm) (only : Option (List String))
    (bag : List (String × List String)) (h : st.validateLocally only = .ok bag) :
    ∀ p ∈ bag, p.2 = ["This field is required."] := by
  unfold SwellForm.validateLocally localErrors at h
  revert h
  cases hd : st.definitions <;> intro h <;>
    first
    | (simp only [Except.ok.injEq] at h
       subst h
       exact localStep_fold_msg _ _ [] (fun p hp => absurd hp (List.not_mem_nil p)))
    | simp at h

theorem fetchFields_errors_frame (st : SwellForm)
    (tr : Except SwellformsError HttpResponse) :
    (st.fetchFields tr).2.errors = st.errors := by
  cases tr with
  | error e => rfl
  | ok r =>
    simp only [SwellForm.fetchFields]
    split
    · split
      · rfl
      · split <;> rfl
    · rfl

theorem validate_errors_characterization (st : SwellForm)
    (only : Option (List String)) (tr : Except SwellformsError HttpResponse) :
    (st.validate only tr).2.errors = st.errors ∨
    (st.validate only tr).2.errors = [] ∨
    (∃ bag, st.validateLocally only = .ok bag ∧ (st.validate only tr).2.errors = bag) ∨
    (∃ r, tr = .ok r ∧ r.status = 422 ∧
      (st.validate only tr).2.errors = normalizeErrors r.json) := by
  by_cases hf : st.hasFetchedDefs
  · rcases hloc : st.validateLocally only with m | bag
    all_goals simp only [SwellForm.validateLocally] at hloc
    · left
      simp [SwellForm.validate, hf, SwellForm.validateLocally, hloc]
    · by_cases hb : bag = []
      · subst hb
        have hv := validate_reaches_remote st only tr
          (Or.inr (by simp [SwellForm.validateLocally, hloc]))
        rw [hv]
        rcases tr with e | r
        · left; rfl
        · by_cases h200 : (r.status == 200 && isTrueVal (getProp r.json "valid")) = true
          · right; left
            simp [validateRemote, h200]
          · by_cases h422 : (r.status == 422) = true
            · right; right; right
              refine ⟨r, rfl, by simpa using h422, ?_⟩
              simp [validateRemote, h200, h422]
            · left
              simp [validateRemote, h200, h422]
      · right; right; left
        refine ⟨bag, by simp [SwellForm.validateLocally, hloc], ?_⟩
        simp [SwellForm.validate, hf, SwellForm.validateLocally, hloc, hb]
  · have hv := validate_reaches_remote st only tr (Or.inl (by simpa using hf))
    rw [hv]
    rcases tr with e | r
    · left; rfl
    · by_cases h200 : (r.status == 200 && isTrueVal (getProp r.json "valid")) = true
      · right; left
        simp [validateRemote, h200]
      · by_cases h422 : (r.status == 422) = true
        · right; right; right
          refine ⟨r, rfl, by simpa using h422, ?_⟩
          simp [validateRemote, h200, h422]
        · left
          simp [validateRemote, h200, h422]

theorem submit_errors_characterization (st : SwellForm)
    (tr : Except SwellformsError HttpResponse) :
    (st.submit tr).2.errors = st.errors ∨
    (st.submit tr).2.errors = [] ∨
    (∃ bag, st.validateLocally none = .ok bag ∧ (st.submit tr).2.errors = bag) ∨
    (∃ r, tr = .ok r ∧ r.status = 422 ∧
      (st.submit tr).2.errors = normalizeErrors r.json) := by
  by_cases hf : st.hasFetchedDefs
  · rcases hloc : st.validateLocally none with m | bag
    all_goals simp only [SwellForm.validateLocally] at hloc
    · left
      simp [SwellForm.submit, hf, SwellForm.validateLocally, hloc]
    · by_cases hb : bag = []
      · subst hb
        have hv := submit_reaches_remote st tr
          (Or.inr (by simp [SwellForm.validateLocally, hloc]))
        rw [hv]
        rcases tr with e | r
        · left; rfl
        · by_cases h422 : (r.status == 422) = true
          · right; right; right
            refine ⟨r, rfl, by simpa using h422, ?_⟩
            simp [submitRemote, h422]
          · by_cases hok : resOk r.status = true
            · right; left
              simp [submitRemote, h422, hok]
            · left
              simp only [submitRemote, h422, hok, Bool.false_eq_true, if_false]
              split
              · rfl
              · split
                · rfl
                · split <;> rfl
      · right; right; left
        refine ⟨bag, by simp [SwellForm.validateLocally, hloc], ?_⟩
        simp [SwellForm.submit, hf, SwellForm.validateLocally, hloc, hb]
  · have hv := submit_reaches_remote st tr (Or.inl (by simpa using hf))
    rw [hv]
    rcases tr with e | r
    · left; rfl
    · by_cases h422 : (r.status == 422) = true
      · right; right; right
        refine ⟨r, rfl, by simpa using h422, ?_⟩
        simp [submitRemote, h422]
      · by_cases hok : resOk r.status = true
        · right; left
          simp [submitRemote, h422, hok]
        · left
          simp only [submitRemote, h422, hok, Bool.false_eq_true, if_false]
          split
          · rfl
          · split
            · rfl
            · split <;> rfl

/-- C3 amended: the error bag of a fresh instance is free of empty message
lists, and every operation preserves that — unconditionally for `setField`,
`setFields` and `fetchFields` (and local validation always records the
non-empty `['This field is required.']`), and for the 422 branches of
`validate`/`submit` provided the 422 body normalizes without empty lists.  A
422 body mapping a key to a non-array value (or an array with no strings)
does produce an empty-list entry, as the counterexample shows. -/
theorem errors_nonempty_invariant (st : SwellForm) (fid : String)
    (init map : List (String × JSValue)) (n : String) (v : JSValue)
    (only : Option (List String)) (tr : Except SwellformsError HttpResponse)
    (h : errorsWF st.errors) :
    errorsWF (mkForm fid init).errors ∧
    errorsWF (st.setField n v).errors ∧
    errorsWF (st.setFields map).errors ∧
    errorsWF (st.fetchFields tr).2.errors ∧
    (wf422 tr → errorsWF (st.validate only tr).2.errors) ∧
    (wf422 tr → errorsWF (st.submit tr).2.errors) := by
  refine ⟨fun p hp => absurd hp (List.not_mem_nil p), ?_, h, ?_, ?_, ?_⟩
  · have he : (st.setField n v).errors =
        if (objGet? st.errors n).isSome then objDelete st.errors n else st.errors := rfl
    rw [he]
    by_cases hs : (objGet? st.errors n).isSome
    · rw [if_pos hs]
      intro p hp
      exact h p (mem_objDelete _ _ _ hp)
    · rw [if_neg hs]
      exact h
  · rw [fetchFields_errors_frame]
    exact h
  · intro hwf
    rcases validate_errors_characterization st only tr with hc | hc | ⟨bag, hbag, hc⟩ |
      ⟨r, hr, hs, hc⟩
    · rw [hc]; exact h
    · rw [hc]; exact fun p hp => absurd hp (List.not_mem_nil p)
    · rw [hc]
      intro p hp
      rw [validateLocally_ok_msg st only bag hbag p hp]
      simp
    · rw [hc]
      exact hwf r hr hs
  · intro hwf
    rcases submit_errors_characterization st tr with hc | hc | ⟨bag, hbag, hc⟩ |
      ⟨r, hr, hs, hc⟩
    · rw [hc]; exact h
    · rw [hc]; exact fun p hp => absurd hp (List.not_mem_nil p)
    · rw [hc]
      intro p hp
      rw [validateLocally_ok_msg st none bag hbag p hp]
      simp
    · rw [hc]
      exact hwf r hr hs

theorem errors_nonempty_invariant_witness :
    errorsWF ((mkForm "w" []).validate none
      (.ok ⟨422, .obj [("errors", .obj [("a", .arr [.str "m"])])]⟩)).2.errors := by
  have hw : wf422 (.ok ⟨422, .obj [("errors", .obj [("a", .arr [.str "m"])])]⟩) := by
    intro r hr hs
    cases hr
    have hbag : errorsWF [("a", ["m"])] := by
      intro p hp
      rw [List.mem_singleton.mp hp]
      simp
    exact hbag
  exact (errors_nonempty_invariant (mkForm "w" []) "x" [] [] "n" .undefined none _
    (fun p hp => absurd hp (List.not_mem_nil p))).2.2.2.2.1 hw

/-! ### C6: `toPlain` -/

theorem toPlainList_eq (xs : List JSValue) : toPlainList xs = xs.map toPlain := by
  induction xs with
  | nil => simp [toPlainList]
  | cons v rest ih => simp [toPlainList, ih]

theorem toPlainFields_eq (fs : List (String × JSValue)) :
    toPlainFields fs = fs.filterMap fun p =>
      match toPlain p.2 with
      | .undefined => none
      | pv => some (p.1, pv) := by
  induction fs with
  | nil => simp [toPlainFields]
  | cons p rest ih =>
    obtain ⟨k, w⟩ := p
    cases hp : toPlain w <;> simp [toPlainFields, hp, ih]

/-- C6: `toPlain` passes primitives and `null`/`undefined` through unchanged,
converts arrays element-wise (preserving order and length), turns a `Date`
into its ISO-8601 string, unwraps an object whose sole key is `value`
recursively (and only such objects), drops `undefined`-valued keys of generic
objects while preserving key order, and on the concrete input
`{a: Date(0), b: [1, undefined, 2], c: {value: 5}}` yields
`{a: "1970-01-01T00:00:00.000Z", b: [1, undefined, 2], c: 5}`. -/
theorem toPlain_spec :
    (toPlain .undefined = .undefined) ∧
    (toPlain .null = .null) ∧
    (∀ b, toPlain (.bool b) = .bool b) ∧
    (∀ n, toPlain (.num n) = .num n) ∧
    (∀ s, toPlain (.str s) = .str s) ∧
    (∀ ms, toPlain (.date ms) = .str (isoString ms)) ∧
    isoString 0 = "1970-01-01T00:00:00.000Z" ∧
    (∀ xs, toPlain (.arr xs) = .arr (xs.map toPlain)) ∧
    (∀ xs : List JSValue, (xs.map toPlain).length = xs.length) ∧
    (∀ v, toPlain (.obj [("value", v)]) = toPlain v) ∧
    (∀ fs, (∀ v, fs ≠ [("value", v)]) →
      toPlain (.obj fs) =
        .obj (fs.filterMap fun p =>
          match toPlain p.2 with
          | .undefined => none
          | pv => some (p.1, pv))) ∧
    toPlain (.obj [("a", .date 0), ("b", .arr [.num 1, .undefined, .num 2]),
        ("c", .obj [("value", .num 5)])]) =
      .obj [("a", .str "1970-01-01T00:00:00.000Z"),
        ("b", .arr [.num 1, .undefined, .num 2]), ("c", .num 5)] := by
  refine ⟨by simp [toPlain], by simp [toPlain], fun b => by simp [toPlain],
    fun n => by simp [toPlain], fun s => by simp [toPlain],
    fun ms => by simp [toPlain], rfl,
    fun xs => by simp [toPlain, toPlainList_eq],
    fun xs => List.length_map xs toPlain,
    fun v => by simp [toPlain],
    ?_, ?_⟩
  · intro fs hfs
    match fs with
    | [] => simp [toPlain, toPlainFields]
    | [(k, w)] =>
      have hk : ¬ k = "value" := by
        intro hkv
        exact hfs w (by rw [hkv])
      rw [show toPlain (.obj [(k, w)]) =
          (if k = "value" then toPlain w else .obj (toPlainFields [(k, w)])) from rfl,
        if_neg hk, toPlainFields_eq]
    | p :: q :: rest =>
      rw [show toPlain (.obj (p :: q :: rest)) =
          .obj (toPlainFields (p :: q :: rest)) from rfl,
        toPlainFields_eq]
  · simp [toPlain, toPlainList, toPlainFields]
    rfl

theorem toPlain_spec_witness :
    toPlain (.obj [("a", .num 1), ("b", .undefined)]) = .obj [("a", .num 1)] := by
  have h := toPlain_spec.2.2.2.2.2.2.2.2.2.2.1 [("a", .num 1), ("b", .undefined)]
    (fun v => by simp)
  rw [h]
  simp [toPlain]

/-! ### C5: `normalizeErrors` characterization -/

/-- Remove every occurrence of a key from a plain key list. -/
def removeKey : List String → String → List String
  | [], _ => []
  | x :: xs, k => if x = k then removeKey xs k else x :: removeKey xs k

/-- Deduplicate a key list keeping the first occurrence of each key, in
encounter order. -/
def keysFirstOccur : List String → List String
  | [] => []
  | k :: ks => k :: removeKey (keysFirstOccur ks) k

/-- All messages of the entries carrying a given field name, concatenated in
encounter order. -/
def collectMsgs (es : List (String × List String)) (n : String) : List String :=
  match es with
  | [] => []
  | kv :: rest => if kv.1 = n then kv.2 ++ collectMsgs rest n else collectMsgs rest n

/-- The spec's description of the error bag built from pre-normalized
entries: one entry per distinct field name in first-encounter order, carrying
the concatenation of all message lists normalizing to that name. -/
def groupSpec (es : List (String × List String)) : List (String × List String) :=
  (keysFirstOccur (es.map Prod.fst)).map fun n => (n, collectMsgs es n)

/-- Modelled from the spec's §4.2 wording, for comparison with the code's
`normalizeErrors`: select the source (the nested `errors` object when it is a
truthy object, else the body), return an empty mapping for a non-object
source, and otherwise group the entries — keys with their `fields.` prefix
stripped, values coerced to string lists — by normalized field name in
encounter order, concatenating the lists of coinciding names. -/
def normalizeErrorsSpec (raw : JSValue) : List (String × List String) :=
  let source := errorSource raw
  if truthy source ∧ typeofObject source then
    groupSpec ((jsEntries source).map fun kv => (fieldNameOf kv.1, coerceMsgs kv.2))
  else []

theorem mem_removeKey (l : List String) (k x : String) :
    x ∈ removeKey l k ↔ x ∈ l ∧ ¬ x = k := by
  induction l with
  | nil => simp [removeKey]
  | cons a xs ih =>
    by_cases ha : a = k
    · subst ha
      rw [show removeKey (a :: xs) a = removeKey xs a from by simp [removeKey], ih]
      constructor
      · rintro ⟨h1, h2⟩
        exact ⟨List.mem_cons_of_mem _ h1, h2⟩
      · rintro ⟨h1, h2⟩
        rcases List.mem_cons.mp h1 with h3 | h3
        · exact absurd h3 h2
        · exact ⟨h3, h2⟩
    · rw [show removeKey (a :: xs) k = a :: removeKey xs k from by simp [removeKey, ha]]
      constructor
      · intro hm
        rcases List.mem_cons.mp hm with h3 | h3
        · subst h3
          exact ⟨List.mem_cons_self _ _, ha⟩
        · rcases ih.mp h3 with ⟨h4, h5⟩
          exact ⟨List.mem_cons_of_mem _ h4, h5⟩
      · rintro ⟨h1, h2⟩
        rcases List.mem_cons.mp h1 with h3 | h3
        · subst h3
          exact List.mem_cons_self _ _
        · exact List.mem_cons_of_mem _ (ih.mpr ⟨h3, h2⟩)

theorem mem_keysFirstOccur (l : List String) (x : String) :
    x ∈ keysFirstOccur l ↔ x ∈ l := by
  induction l with
  | nil => simp [keysFirstOccur]
  | cons k ks ih =>
    simp only [keysFirstOccur, List.mem_cons, mem_removeKey, ih]
    constructor
    · rintro (h | ⟨h, _⟩)
      · exact Or.inl h
      · exact Or.inr h
    · rintro (h | h)
      · exact Or.inl h
      · by_cases hx : x = k
        · exact Or.inl hx
        · exact Or.inr ⟨h, hx⟩

theorem nodup_removeKey (l : List String) (k : String) (h : l.Nodup) :
    (removeKey l k).Nodup := by
  induction l with
  | nil => simp [removeKey]
  | cons a xs ih =>
    rcases List.nodup_cons.mp h with ⟨ha, hxs⟩
    by_cases hak : a = k
    · simpa [removeKey, hak] using ih hxs
    · rw [removeKey, if_neg hak]
      refine List.nodup_cons.mpr ⟨?_, ih hxs⟩
      intro hmem
      exact ha ((mem_removeKey xs k a).mp hmem).1

theorem nodup_keysFirstOccur (l : List String) : (keysFirstOccur l).Nodup := by
  induction l with
  | nil => simp [keysFirstOccur]
  | cons k ks ih =>
    rw [keysFirstOccur]
    refine List.nodup_cons.mpr ⟨?_, nodup_removeKey _ _ ih⟩
    intro hmem
    exact ((mem_removeKey _ _ _).mp hmem).2 rfl

theorem removeKey_append (l : List String) (x k : String) :
    removeKey (l ++ [x]) k = removeKey l k ++ (if x = k then [] else [x]) := by
  induction l with
  | nil =>
    by_cases hx : x = k <;> simp [removeKey, hx]
  | cons a xs ih =>
    by_cases ha : a = k <;> simp [removeKey, ha, ih]

theorem keysFirstOccur_append (ks : List String) (k : String) :
    keysFirstOccur (ks ++ [k]) =
      if k ∈ ks then keysFirstOccur ks else keysFirstOccur ks ++ [k] := by
  induction ks with
  | nil => simp [keysFirstOccur, removeKey]
  | cons a ks ih =>
    by_cases hk : k ∈ ks
    · have hmem : k ∈ a :: ks := List.mem_cons_of_mem _ hk
      simp only [List.cons_append, keysFirstOccur, List.append_eq, ih, if_pos hk,
        if_pos hmem]
    · by_cases hak : k = a
      · subst hak
        have hmem : k ∈ k :: ks := List.mem_cons_self _ _
        simp only [List.cons_append, keysFirstOccur, List.append_eq, ih, if_neg hk,
          if_pos hmem]
        rw [show removeKey (keysFirstOccur ks ++ [k]) k =
            removeKey (keysFirstOccur ks) k ++ [] from by
          rw [removeKey_append, if_pos rfl], List.append_nil]
      · have hmem : ¬ k ∈ a :: ks := by
          simp [List.mem_cons, hak, hk]
        simp only [List.cons_append, keysFirstOccur, List.append_eq, ih, if_neg hk,
          if_neg hmem, removeKey_append, if_neg hak]

theorem collectMsgs_append (es : List (String × List String))
    (kv : String × List String) (n : String) :
    collectMsgs (es ++ [kv]) n =
      collectMsgs es n ++ (if kv.1 = n then kv.2 else []) := by
  induction es with
  | nil => by_cases h : kv.1 = n <;> simp [collectMsgs, h]
  | cons p rest ih => by_cases h : p.1 = n <;> simp [collectMsgs, h, ih]

theorem collectMsgs_not_mem (es : List (String × List String)) (n : String)
    (h : ¬ n ∈ es.map Prod.fst) : collectMsgs es n = [] := by
  induction es with
  | nil => rfl
  | cons p rest ih =>
    have h1 : ¬ p.1 = n := fun hh => h (List.mem_cons.mpr (Or.inl hh.symm))
    have h2 : ¬ n ∈ rest.map Prod.fst := fun hm => h (List.mem_cons_of_mem _ hm)
    simp [collectMsgs, h1, ih h2]

theorem groupSpec_keys (es : List (String × List String)) :
    (groupSpec es).map Prod.fst = keysFirstOccur (es.map Prod.fst) := by
  simp [groupSpec, List.map_map, Function.comp_def]

theorem objGet?_eq_none_iff (m : List (String × α)) (k : String) :
    objGet? m k = none ↔ ¬ k ∈ m.map Prod.fst := by
  induction m with
  | nil => simp [objGet?]
  | cons p rest ih =>
    by_cases h : p.1 = k
    · simp [objGet?, h]
    · simp [objGet?, h, ih, Ne.symm h]

theorem foldl_bagAdd_eq_groupSpec (es : List (String × List String)) :
    es.foldl (fun bag kv => bagAdd bag kv.1 kv.2) [] = groupSpec es := by
  induction es using List.reverseRecOn with
  | nil => rfl
  | append_singleton es kv ih =>
    rw [List.foldl_append, List.foldl_cons, List.foldl_nil, ih]
    by_cases hk : kv.1 ∈ es.map Prod.fst
    · have hkey : kv.1 ∈ (groupSpec es).map Prod.fst := by
        rw [groupSpec_keys, mem_keysFirstOccur]
        exact hk
      rcases hsome : objGet? (groupSpec es) kv.1 with _ | v
      · exact absurd ((objGet?_eq_none_iff _ _).mp hsome) (by simpa using hkey)
      · rw [show bagAdd (groupSpec es) kv.1 kv.2 =
            (groupSpec es).map (fun p => if p.1 = kv.1 then (p.1, p.2 ++ kv.2) else p) from by
          unfold bagAdd
          rw [hsome]]
        unfold groupSpec
        rw [List.map_append]
        simp only [List.map_cons, List.map_nil]
        rw [keysFirstOccur_append, if_pos hk, List.map_map]
        apply List.map_congr_left
        intro n hn
        by_cases hnk : n = kv.1
        · subst hnk
          simp only [Function.comp_apply]
          rw [collectMsgs_append, if_pos rfl]
          simp
        · simp only [Function.comp_apply, if_neg hnk]
          rw [collectMsgs_append, if_neg (fun hh => hnk hh.symm), List.append_nil]
    · have hnone : objGet? (groupSpec es) kv.1 = none := by
        rw [objGet?_eq_none_iff, groupSpec_keys]
        exact fun hm => hk ((mem_keysFirstOccur _ _).mp hm)
      rw [show bagAdd (groupSpec es) kv.1 kv.2 = groupSpec es ++ [(kv.1, kv.2)] from by
        unfold bagAdd
        rw [hnone]]
      unfold groupSpec
      rw [List.map_append]
      simp only [List.map_cons, List.map_nil]
      rw [keysFirstOccur_append, if_neg hk, List.map_append]
      congr 1
      · apply List.map_congr_left
        intro n hn
        have hnk : ¬ kv.1 = n :=
          fun hh => hk (hh ▸ (mem_keysFirstOccur _ _).mp hn)
        rw [collectMsgs_append, if_neg hnk, List.append_nil]
      · rw [show List.map (fun n => (n, collectMsgs (es ++ [kv]) n)) [kv.1] =
            [(kv.1, collectMsgs (es ++ [kv]) kv.1)] from rfl]
        rw [collectMsgs_append, if_pos rfl, collectMsgs_not_mem es kv.1 hk]
        simp

/-- C5: for every input body (including `undefined`), `normalizeErrors` is a
total function (it cannot throw) equal to the spec's description — source
selection (`errors` sub-object when a truthy object, else the body), empty
mapping for a non-object source, `fields.` prefix stripping, coercion of
non-array values to empty message lists and dropping of non-string elements,
and concatenation (in encounter order) of the lists of keys normalizing to
the same field name — and the resulting mapping is well formed: its field
names are pairwise distinct. -/
theorem normalizeErrors_correct (raw : JSValue) :
    normalizeErrors raw = normalizeErrorsSpec raw ∧
    ((normalizeErrors raw).map Prod.fst).Nodup := by
  have key : normalizeErrors raw = normalizeErrorsSpec raw := by
    simp only [normalizeErrors, normalizeErrorsSpec]
    by_cases hc : truthy (errorSource raw) = true ∧ typeofObject (errorSource raw) = true
    · rw [if_pos hc, if_pos hc, ← foldl_bagAdd_eq_groupSpec, List.foldl_map]
    · rw [if_neg hc, if_neg hc]
  refine ⟨key, ?_⟩
  rw [key]
  simp only [normalizeErrorsSpec]
  by_cases hc : truthy (errorSource raw) = true ∧ typeofObject (errorSource raw) = true
  · rw [if_pos hc, groupSpec_keys]
    exact nodup_keysFirstOccur _
  · rw [if_neg hc]
    simp
